import Mathlib

set_option maxRecDepth 8000

/-!
Shallow embedding of the RTP jitter buffer in `src/jitter/buffer.go`
(package `jitter` of livekit/media-sdk).

The `Buffer` state and the operations `push`, `Push`, `popReady`,
`dropIncompleteExpired`, `popSample`, `before`, `withinRange` are translated
from `src/jitter/buffer.go`.  The packet node, its `start`/`end`/`discont`
flags, `newPacket`, `isComplete` and `free` live in a `packet.go` file that is
not part of the sources; those are modelled from the specification
(spec sections 3, 4.2 and 4.4) and are marked as such below.

Times are integers (milliseconds); RTP sequence numbers are natural numbers
representing `uint16` values, with all arithmetic performed modulo 2^16 as in
the Go code.  The consumer callback `onPacket` is modelled by appending the
delivered sample to the `emitted` log; the optional loss callback
`onPacketLoss` is modelled by the counter `lossCalls`, incremented exactly
where the Go code would invoke the handler (guarded by `hasLossHandler`,
which models `onPacketLoss != nil`).  The deadline timer itself is real-time
behaviour and is not modelled; timer fires are modelled as calls of
`popReady` at an arbitrary time.
-/

namespace Jitter

/-- An incoming RTP packet as seen by `Buffer.Push`: its sequence number
(a `uint16` value), its padding flag, and the two sample-boundary verdicts
of the depacketizer for this packet.  Modelled from the spec: the
depacketizer contract (spec section 4.7) says `start` and `end` are computed
by `IsPartitionHead(payload)` / `IsPartitionTail(marker, payload)`; since the
payload is opaque to the buffer, the two Booleans stand for those results. -/
structure InPacket where
  seq : Nat
  padding : Bool
  start : Bool
  end_ : Bool
deriving Repr, DecidableEq

/-- Modelled from the spec: the packet node of the intrusive list
(spec section 3; the `packet` struct is in the repository's `packet.go`,
which is not among the sources).  One node per received RTP packet, carrying
the sequence number, the padding flag, the `start`/`end` boundary flags, the
`received_at` stamp and the `discont` flag.  The intrusive `prev`/`next`
links are represented by the position of the node in the buffer's
`packets` list. -/
structure Packet where
  seq : Nat
  padding : Bool
  start : Bool
  end_ : Bool
  receivedAt : Int
  discont : Bool
deriving Repr, DecidableEq

/-- The `BufferStats` counters of `src/jitter/buffer.go`. -/
structure BufferStats where
  packetsPushed : Nat
  paddingPushed : Nat
  packetsLost : Nat
  packetsDropped : Nat
  packetsPopped : Nat
  samplesPopped : Nat
deriving Repr, DecidableEq

/-- The jitter buffer state (`Buffer` in `src/jitter/buffer.go`).
`packets` is the doubly-linked list from head to tail; `emitted` logs the
calls of the consumer callback `onPacket` in order; `lossCalls` counts the
invocations of the `onPacketLoss` handler. -/
structure Buffer where
  latency : Int
  hasLossHandler : Bool
  initialized : Bool
  prevSN : Nat
  packets : List Packet
  stats : BufferStats
  size : Int
  emitted : List (List Packet)
  lossCalls : Nat
deriving Repr, DecidableEq

/-- `uint16` subtraction `a - b` of the Go code: the result of subtracting
two 16-bit values with wrap-around. -/
def sub16 (a b : Nat) : Nat := (a % 65536 + 65536 - b % 65536) % 65536

/-- `before(a, b)` from `src/jitter/buffer.go`: `(b-a)&0x8000 == 0`,
true iff `a` precedes `b` in circular 16-bit order (true on equality). -/
def before (a b : Nat) : Bool := sub16 b a &&& 32768 == 0

/-- `withinRange(a, b)` from `src/jitter/buffer.go`:
`a-b < 3000 || b-a < 3000` in `uint16` arithmetic. -/
def withinRange (a b : Nat) : Bool := sub16 a b < 3000 || sub16 b a < 3000

/-- The `uint16` expression `a - b - 1` used for loss accounting
(`head.seq - prevSN - 1` widened to `uint64` in the Go code). -/
def gap16 (a b : Nat) : Nat := sub16 (sub16 a b) 1

/-- Modelled from the spec: completeness of the sample starting at the head
(the `isComplete` method of `packet.go`, not among the sources; spec
section 4.4): the prefix starts with a node whose `start` flag or whose
`discont` flag is true, ends at a node whose `end` flag is true, and every
intermediate pair is sequentially contiguous (`next.seq = cur.seq + 1`
mod 2^16) with no intervening `discont`.  `sampleEnds` is the walk along the
`next` links. -/
def sampleEnds : List Packet → Bool
  | [] => false
  | c :: rest =>
    if c.end_ then true
    else
      match rest with
      | [] => false
      | nxt :: _ => nxt.seq == (c.seq + 1) % 65536 && !nxt.discont && sampleEnds rest

/-- Modelled from the spec: see `sampleEnds`. -/
def isComplete (l : List Packet) : Bool :=
  match l with
  | [] => false
  | c :: _ => (c.start || c.discont) && sampleEnds l

/-- The backward scan of `push` (the `withinTailRange` case of the switch):
`sl` is the chain `tail.prev, tail.prev.prev, ...` (i.e. the list without
its tail, reversed).  Inserting after `c` in the forward list is inserting
before `c` here; `none` means the scan ran off the head end without
inserting (the Go loop would fall through and lose the node). -/
def scanBack (p : Packet) : List Packet → Option (List Packet)
  | [] => none
  | c :: cs =>
    let d := !withinRange p.seq c.seq
    if !before p.seq c.seq || d then
      some ({ p with discont := d && p.start } :: c :: cs)
    else
      (scanBack p cs).map (c :: ·)

/-- The forward scan of `push` (the `withinHeadRange` case of the switch):
`cs` is the chain `head.next, head.next.next, ...`.  The new node is
inserted before the first `c` with `before(seq, c.seq)` or out of range;
note the Go code does not set `p.discont` on this path. -/
def scanFwd (p : Packet) : List Packet → Option (List Packet)
  | [] => none
  | c :: cs =>
    let d := !withinRange p.seq c.seq
    if before p.seq c.seq || d then
      some (p :: c :: cs)
    else
      (scanFwd p cs).map (c :: ·)

/-- The list-insertion part of `push` (`src/jitter/buffer.go` lines 200-261):
the empty-buffer case, the prepend/append fast paths, the two scans, and the
far-distance append.  `discont` is the value computed at line 198. -/
def insertPacket (b : Buffer) (p : Packet) (discont : Bool) : Buffer :=
  match b.packets with
  | [] => { b with packets := [{ p with discont := discont && p.start }] }
  | hd :: rest =>
    let l := hd :: rest
    let tl := rest.getLastD hd
    let beforeHead := before p.seq hd.seq
    let afterTail := !before p.seq tl.seq
    let withinHeadRange := withinRange p.seq hd.seq
    let withinTailRange := withinRange p.seq tl.seq
    if beforeHead && withinHeadRange then
      { b with packets := { p with discont := discont && p.start } :: l }
    else if afterTail && withinTailRange then
      { b with packets := l ++ [p] }
    else if withinTailRange then
      match scanBack p l.reverse.tail with
      | some r => { b with packets := (tl :: r).reverse }
      | none => b
    else if withinHeadRange then
      match scanFwd p rest with
      | some r => { b with packets := hd :: r }
      | none => b
    else
      { b with packets := l ++ [{ p with discont := p.start }] }

/-- `push` from `src/jitter/buffer.go` (lines 176-261): stats, the
padding-before-init early return, the stale-packet drop, node construction
(`newPacket`, modelled from the spec: `received_at = now`, boundary flags
from the depacketizer, `size++`), the `discont` computation, and insertion. -/
def push (b : Buffer) (pkt : InPacket) (now : Int) : Buffer :=
  let b1 := { b with stats := { b.stats with packetsPushed := b.stats.packetsPushed + 1 } }
  let b1 :=
    if pkt.padding then
      { b1 with stats := { b1.stats with paddingPushed := b1.stats.paddingPushed + 1 } }
    else b1
  if pkt.padding && !b1.initialized then b1
  else if b1.initialized && before pkt.seq b1.prevSN then
    if !pkt.padding then
      { b1 with
        stats := { b1.stats with packetsDropped := b1.stats.packetsDropped + 1 },
        lossCalls := if b1.hasLossHandler then b1.lossCalls + 1 else b1.lossCalls }
    else b1
  else
    let p : Packet :=
      { seq := pkt.seq % 65536, padding := pkt.padding, start := pkt.start,
        end_ := pkt.end_, receivedAt := now, discont := false }
    let b2 := { b1 with size := b1.size + 1 }
    let discont := !b2.initialized || !withinRange pkt.seq b2.prevSN
    insertPacket b2 p discont

/-- One pass of the `popSample` loop over the list: pops nodes from the head
up to and including the first node with `end` set, collecting the
non-padding ones, counting all popped nodes, and recording the sequence
number of the last popped node (each `popHead` sets `prevSN`).  `prevSN` is
the value of `b.prevSN` on entry (returned unchanged when the list is empty,
a state unreachable from `popReady`, where the Go code would dereference
nil). -/
def popSampleList (prevSN : Nat) : List Packet → List Packet × List Packet × Nat × Nat
  | [] => ([], [], 0, prevSN)
  | c :: cs =>
    if c.end_ then
      (if c.padding then [] else [c], cs, 1, c.seq)
    else
      let r := popSampleList c.seq cs
      (if c.padding then r.1 else c :: r.1, r.2.1, r.2.2.1 + 1, r.2.2.2)

/-- `popSample` from `src/jitter/buffer.go` (lines 318-337): returns the
sample slice handed to the consumer and the updated buffer (`popHead` sets
`prevSN`, `free` decrements `size`, the counters and `initialized` are
updated at the end). -/
def popSample (b : Buffer) : List Packet × Buffer :=
  let r := popSampleList b.prevSN b.packets
  (r.1,
    { b with
      packets := r.2.1,
      prevSN := r.2.2.2,
      initialized := true,
      size := b.size - r.2.2.1,
      stats := { b.stats with
        packetsPopped := b.stats.packetsPopped + r.2.2.1,
        samplesPopped := b.stats.samplesPopped + 1 } })

/-- The body `if sample := b.popSample(); len(sample) > 0 { b.onPacket(sample) }`
of the emit loop: the consumer callback is recorded in `emitted`. -/
def emitStep (b : Buffer) : Buffer :=
  let r := popSample b
  if r.1.isEmpty then r.2 else { r.2 with emitted := r.2.emitted ++ [r.1] }

/-- The loss accounting `b.stats.PacketsLost += uint64(head.seq - prevSN - 1)`
of the emit loop, with `s` the head's sequence number. -/
def addLost (b : Buffer) (s : Nat) : Buffer :=
  { b with stats := { b.stats with packetsLost := b.stats.packetsLost + gap16 s b.prevSN } }

/-- The emit loop of `popReady` (`src/jitter/buffer.go` lines 270-287).
The first argument is recursion fuel: each iteration consumes at least one
node, so `b.packets.length` iterations always suffice (`popReadyLoop_fuel`
below), and `popReady` passes exactly that; with the fuel exhausted the list
is empty and the loop exits exactly as the `for` condition would. -/
def popReadyLoop : Nat → Buffer → Int → Bool → Buffer × Bool
  | 0, b, _, loss => (b, loss)
  | fuel + 1, b, expiry, loss =>
    match b.packets with
    | [] => (b, loss)
    | c :: _ =>
      if isComplete b.packets then
        if c.seq == (b.prevSN + 1) % 65536 || c.discont || !b.initialized then
          popReadyLoop fuel (emitStep b) expiry loss
        else if c.receivedAt < expiry then
          popReadyLoop fuel (emitStep (addLost b c.seq)) expiry true
        else (b, loss)
      else (b, loss)

/-- The body of one iteration of the drop loop (`src/jitter/buffer.go`
lines 303-310): account the loss when initialized and the head is not a
discontinuity, then `free(popHead())` (which sets `prevSN` to the dropped
node's sequence number and decrements `size`) and count the drop. -/
def dropStep (b : Buffer) (c : Packet) (cs : List Packet) : Buffer :=
  let b1 :=
    if b.initialized && !c.discont then
      { b with stats := { b.stats with
        packetsLost := b.stats.packetsLost + gap16 c.seq b.prevSN } }
    else b
  { b1 with
    packets := cs, prevSN := c.seq, size := b1.size - 1,
    stats := { b1.stats with packetsDropped := b1.stats.packetsDropped + 1 } }

/-- The drop loop of `dropIncompleteExpired` (`src/jitter/buffer.go`
lines 300-311).  Fueled like `popReadyLoop`; each iteration removes exactly
one node, so `b.packets.length` iterations always suffice. -/
def dropLoop : Nat → Buffer → Int → Bool → Buffer × Bool
  | 0, b, _, dropped => (b, dropped)
  | fuel + 1, b, expiry, dropped =>
    match b.packets with
    | [] => (b, dropped)
    | c :: cs =>
      if isComplete b.packets then (b, dropped)
      else if c.receivedAt < expiry then
        dropLoop fuel (dropStep b c cs) expiry true
      else (b, dropped)

/-- The loss-signal epilogue shared by `dropIncompleteExpired` and
`popReady`: `if flag && b.onPacketLoss != nil { b.onPacketLoss() }`. -/
def signalLoss (r : Buffer × Bool) : Buffer :=
  if r.2 && r.1.hasLossHandler then
    { r.1 with lossCalls := r.1.lossCalls + 1 }
  else r.1

/-- `dropIncompleteExpired` from `src/jitter/buffer.go` (lines 299-316):
the drop loop followed by its own loss signal (`if dropped && b.onPacketLoss != nil`). -/
def dropIncompleteExpired (b : Buffer) (expiry : Int) : Buffer :=
  signalLoss (dropLoop b.packets.length b expiry false)

/-- `popReady` from `src/jitter/buffer.go` (lines 265-296): compute
`expiry = now - latency`, drop incomplete expired heads, run the emit loop,
and signal loss at most once for the loop (`if loss && b.onPacketLoss != nil`).
The timer re-arm at line 293-295 is real-time behaviour and is not modelled. -/
def popReady (b : Buffer) (now : Int) : Buffer :=
  let expiry := now - b.latency
  let b1 := dropIncompleteExpired b expiry
  signalLoss (popReadyLoop b1.packets.length b1 expiry false)

/-- The exported `Push` (`src/jitter/buffer.go` lines 129-139): `push`,
then `popReady` unless the buffer is empty. -/
def Push (b : Buffer) (pkt : InPacket) (now : Int) : Buffer :=
  let b1 := push b pkt now
  if b1.packets.isEmpty then b1 else popReady b1 now

/-- `UpdateLatency` (`src/jitter/buffer.go` lines 119-127); the timer reset
is not modelled. -/
def UpdateLatency (b : Buffer) (latency : Int) : Buffer :=
  { b with latency := latency }

/-- A fresh buffer as produced by `NewBuffer`. -/
def NewBuffer (latency : Int) (hasLossHandler : Bool) : Buffer :=
  { latency := latency, hasLossHandler := hasLossHandler, initialized := false,
    prevSN := 0, packets := [], stats := ⟨0, 0, 0, 0, 0, 0⟩, size := 0,
    emitted := [], lossCalls := 0 }

/-- Buffer states reachable through the public interface: a fresh buffer,
then any interleaving of `Push` calls, timer fires (`popReady`) and
`UpdateLatency` calls (all operations are serialized by the mutex). -/
inductive Reachable : Buffer → Prop where
  | init : ∀ latency hasLossHandler, Reachable (NewBuffer latency hasLossHandler)
  | push : ∀ b pkt now, Reachable b → Reachable (Push b pkt now)
  | timer : ∀ b now, Reachable b → Reachable (popReady b now)
  | updateLatency : ∀ b d, Reachable b → Reachable (UpdateLatency b d)


/-! ### Runs of buffer operations and delivery-order predicates -/

/-- One serialized operation on the buffer: a producer `Push` or a fire of
the deadline timer (which runs `popReady`), each at some wall-clock time. -/
inductive Op where
  | push (pkt : InPacket) (now : Int)
  | timer (now : Int)
deriving Repr, DecidableEq

/-- Execute one operation. -/
def stepOp (b : Buffer) : Op → Buffer
  | .push pkt now => Push b pkt now
  | .timer now => popReady b now

/-- Execute a run of operations in order. -/
def exec (b : Buffer) : List Op → Buffer
  | [] => b
  | op :: ops => exec (stepOp b op) ops

/-- The sequence numbers pushed during a run, in push order. -/
def pushedSeqs (ops : List Op) : List Nat :=
  ops.filterMap fun op =>
    match op with
    | .push pkt _ => some pkt.seq
    | .timer _ => none

/-- All sequence numbers delivered to the consumer, in delivery order. -/
def deliveredSeqs (b : Buffer) : List Nat :=
  b.emitted.flatten.map Packet.seq

/-- Strict wrap-aware precedence of two `uint16` sequence numbers. -/
def seqLt (a b : Nat) : Prop := before a b = true ∧ a % 65536 ≠ b % 65536

/-- Adjacency along the `next` links of a contiguous sample: the second
node's sequence number is the successor (mod 2^16) of the first's. -/
def nextSeq (a b : Packet) : Prop := b.seq = (a.seq + 1) % 65536

/-- Consecutive delivered samples in the same continuity segment are
ordered: if the head of the later sample is not flagged `discont` (so it
continues the current segment), the last sequence number of the earlier
sample strictly wrap-precedes the first sequence number of the later one. -/
def sameSegStep (s1 s2 : List Packet) : Prop :=
  ∀ p2, s2.head? = some p2 → p2.discont = false →
    ∀ p1, s1.getLast? = some p1 → seqLt p1.seq p2.seq

/-- The adjacency property of spec invariant 2 as literally claimed:
`a.seq` wrap-precedes `b.seq` unless `b.discont`. -/
def pairOrderedClaim (a b : Packet) : Prop :=
  before a.seq b.seq = true ∨ b.discont = true

/-- The amended adjacency property: the exception also covers nodes that
are not sample starts (`b.start = false`), since `push` never marks those
`discont` even when they are inserted far from their neighbor. -/
def pairOrdered (a b : Packet) : Prop :=
  before a.seq b.seq = true ∨ b.discont = true ∨ b.start = false

/-! ### Concrete runs used by the individual claims -/

/-- Claim C1's literal scenario: latency 100ms, audio depacketizer
(`start = end = true` on every packet), push 100 at t=0, push 50000 at
t=10ms, with a loss handler installed. -/
def C1_run : Buffer :=
  Push (Push (NewBuffer 100 true) ⟨100, false, true, true⟩ 0) ⟨50000, false, true, true⟩ 10

/-- A reachable state for claim C2: 100 was delivered, 102 is an incomplete
sample head (start but no end), 104 is a complete sample behind it; all
received at t=0, latency 100ms. -/
def C2_pre : Buffer :=
  Push (Push (Push (NewBuffer 100 true) ⟨100, false, true, true⟩ 0)
    ⟨102, false, true, false⟩ 0) ⟨104, false, true, true⟩ 0

/-- A reachable state for claim C7: 100 was delivered; a padding packet 101
whose payload the depacketizer does not recognize as a partition head
(`start = false`) is enqueued. -/
def C7_pre : Buffer :=
  Push (Push (NewBuffer 100 true) ⟨100, false, true, true⟩ 0) ⟨101, true, false, false⟩ 0

/-- Claim C7: the timer fires once the padding packet has expired. -/
def C7_run : Buffer := popReady C7_pre 200

/-- A reachable state for claim C8: one packet delivered, `prevSN = 100`. -/
def C8_B : Buffer := Push (NewBuffer 100 true) ⟨100, false, true, true⟩ 0

/-- A reachable state for claim C6: 100 was delivered; 200 is an enqueued
non-start packet that can never complete. -/
def C6_pre : Buffer :=
  Push (Push (NewBuffer 100 true) ⟨100, false, true, true⟩ 0) ⟨200, false, false, true⟩ 0

/-- Claim C6: the timer fires at t=200 and drops the incomplete packet. -/
def C6_run : Buffer := popReady C6_pre 200

/-- A reachable state for claim C5: a non-start packet 100 is buffered,
then a non-start packet 40000 arrives (outside `withinRange` of 100, and
with `before(40000, 100)` true so the far-append branch is taken). -/
def C5_run : Buffer :=
  Push (Push (NewBuffer 100 true) ⟨100, false, false, false⟩ 0) ⟨40000, false, false, false⟩ 0

/-- A buffer whose head is a complete sample made of two padding packets
(claim C10); not yet initialized, so the emit condition holds. -/
def C10_B : Buffer :=
  { latency := 100, hasLossHandler := true, initialized := false, prevSN := 7,
    packets := [⟨10, true, true, false, 0, false⟩, ⟨11, true, false, true, 0, false⟩],
    stats := ⟨2, 2, 0, 0, 0, 0⟩, size := 2, emitted := [], lossCalls := 0 }

/-- A buffer used to witness the break case of the emit loop (claim C3):
the head is a complete sample, not contiguous with `prevSN`, not `discont`,
and not yet expired. -/
def C3_B : Buffer :=
  { latency := 100, hasLossHandler := true, initialized := true, prevSN := 0,
    packets := [⟨5, false, true, true, 0, false⟩],
    stats := ⟨1, 0, 0, 0, 0, 0⟩, size := 1, emitted := [], lossCalls := 0 }

/-- The run refuting claim C4: 100 is delivered; 32868 (exactly
`prevSN + 0x8000` away, so not stale) is buffered but never completes; the
timer drops it, advancing `prevSN` to 32868; 32869 is then delivered as
sequentially contiguous (`discont = false`) although it wrap-precedes 100;
finally 101..32867 are pushed (never delivered: 101 parks in the buffer as
a non-start packet, the rest are stale), making the set of pushed sequence
numbers the contiguous range 100..32869. -/
def C4_ops0 : List Op :=
  [.push ⟨100, false, true, true⟩ 0,
   .push ⟨32868, false, false, false⟩ 0,
   .timer 200,
   .push ⟨32869, false, true, true⟩ 200,
   .push ⟨101, false, false, false⟩ 200]

/-- See `C4_ops0`; the filler pushes complete the contiguous range. -/
def C4_ops : List Op :=
  C4_ops0 ++ (List.range' 102 32766).map (fun s => .push ⟨s, false, false, false⟩ 200)

/-- The state after the first five operations of `C4_ops`, parameterized by
the number `i` of stale filler pushes executed since: each such push only
bumps `packetsPushed`, `packetsDropped` and the loss-callback count. -/
def C4_F (i : Nat) : Buffer :=
  { latency := 100, hasLossHandler := true, initialized := true, prevSN := 32869,
    packets := [⟨101, false, false, false, 200, false⟩],
    stats := { packetsPushed := 4 + i, paddingPushed := 0, packetsLost := 32767,
               packetsDropped := 1 + i, packetsPopped := 2, samplesPopped := 2 },
    size := 1,
    emitted := [[⟨100, false, true, true, 0, true⟩], [⟨32869, false, true, true, 200, false⟩]],
    lossCalls := 1 + i }

/-! ### Arithmetic facts about the wrap-aware sequence-number helpers -/

theorem sub16_lt (a b : Nat) : sub16 a b < 65536 := Nat.mod_lt _ (by norm_num)

/-- The Go test `(b-a)&0x8000 == 0` is the comparison `(b-a) mod 2^16 < 0x8000`. -/
theorem before_lt (a b : Nat) : before a b = decide (sub16 b a < 32768) := by
  have h := sub16_lt b a
  unfold before
  have h2 : sub16 b a &&& 32768 = (Nat.testBit (sub16 b a) 15).toNat * 32768 := by
    have h3 := Nat.and_two_pow (sub16 b a) 15
    norm_num at h3
    exact h3
  rw [h2, Nat.testBit_to_div_mod]
  rcases Nat.lt_or_ge (sub16 b a) 32768 with h3 | h3
  · have h4 : sub16 b a / 32768 = 0 := Nat.div_eq_of_lt h3
    simp [h4, h3]
  · have h4 : sub16 b a / 32768 = 1 := by omega
    simp [h4, Nat.not_lt.mpr h3]

theorem before_eq_true_iff (a b : Nat) : before a b = true ↔ sub16 b a < 32768 := by
  rw [before_lt]; simp

theorem before_eq_false_iff (a b : Nat) : before a b = false ↔ 32768 ≤ sub16 b a := by
  rw [before_lt]; simp

theorem withinRange_eq_true_iff (a b : Nat) :
    withinRange a b = true ↔ sub16 a b < 3000 ∨ sub16 b a < 3000 := by
  unfold withinRange; simp

theorem withinRange_eq_false_iff (a b : Nat) :
    withinRange a b = false ↔ 3000 ≤ sub16 a b ∧ 3000 ≤ sub16 b a := by
  unfold withinRange; simp

/-- If `p` is not before `t` but within range of it, then `t` is strictly
before `p` (the wrap distance from `t` forward to `p` is between 1 and 2999). -/
theorem before_flip (p t : Nat) (h1 : before p t = false) (h2 : withinRange p t = true) :
    before t p = true ∧ p % 65536 ≠ t % 65536 := by
  rw [before_eq_false_iff] at h1
  rw [withinRange_eq_true_iff] at h2
  rw [before_eq_true_iff]
  unfold sub16 at *
  constructor
  · omega
  · omega

/-- Used for the forward scan: if the scan passed `x` (`p` not before `x`,
within range of `x`) and the list pair `(x, c)` is ordered (`x` before `c`),
then `p` not before `c` forces `p` within range of `c`. -/
theorem scan_pass_within (p x c : Nat)
    (h1 : before p x = false) (h2 : withinRange p x = true)
    (h3 : before x c = true) (h4 : before p c = false) :
    withinRange p c = true := by
  rw [before_eq_false_iff] at h1 h4
  rw [withinRange_eq_true_iff] at h2 ⊢
  rw [before_eq_true_iff] at h3
  unfold sub16 at *
  omega


/-! ### Bookkeeping lemmas about the pop path -/

theorem popReadyLoop_nil (fuel : Nat) (b : Buffer) (e : Int) (loss : Bool)
    (h : b.packets = []) : popReadyLoop fuel b e loss = (b, loss) := by
  cases fuel <;> simp [popReadyLoop, h]

theorem dropLoop_complete (fuel : Nat) (b : Buffer) (e : Int) (dr : Bool)
    (h : isComplete b.packets = true) : dropLoop fuel b e dr = (b, dr) := by
  cases fuel with
  | zero => rfl
  | succ n =>
    unfold dropLoop
    cases hp : b.packets with
    | nil => rfl
    | cons c cs => rw [hp] at h; simp [h]

theorem popSample_lossCalls (b : Buffer) : (popSample b).2.lossCalls = b.lossCalls := rfl

theorem popSample_emitted (b : Buffer) : (popSample b).2.emitted = b.emitted := rfl

theorem emitStep_lossCalls (b : Buffer) : (emitStep b).lossCalls = b.lossCalls := by
  unfold emitStep
  dsimp only
  split <;> rfl

theorem addLost_lossCalls (b : Buffer) (s : Nat) : (addLost b s).lossCalls = b.lossCalls := by
  unfold addLost
  rfl

theorem popReadyLoop_lossCalls (fuel : Nat) : ∀ (b : Buffer) (e : Int) (loss : Bool),
    ((popReadyLoop fuel b e loss).1).lossCalls = b.lossCalls := by
  induction fuel with
  | zero => intro b e loss; rfl
  | succ n ih =>
    intro b e loss
    unfold popReadyLoop
    cases hp : b.packets with
    | nil => rfl
    | cons c cs =>
      dsimp only
      split
      · split
        · rw [ih, emitStep_lossCalls]
        · split
          · rw [ih, emitStep_lossCalls, addLost_lossCalls]
          · rfl
      · rfl

theorem dropStep_lossCalls (b : Buffer) (c : Packet) (cs : List Packet) :
    (dropStep b c cs).lossCalls = b.lossCalls := by
  unfold dropStep
  dsimp only
  split <;> rfl

theorem dropStep_packets (b : Buffer) (c : Packet) (cs : List Packet) :
    (dropStep b c cs).packets = cs := by
  unfold dropStep
  dsimp only

theorem dropStep_prevSN (b : Buffer) (c : Packet) (cs : List Packet) :
    (dropStep b c cs).prevSN = c.seq := by
  unfold dropStep
  dsimp only

theorem dropStep_emitted (b : Buffer) (c : Packet) (cs : List Packet) :
    (dropStep b c cs).emitted = b.emitted := by
  unfold dropStep
  dsimp only
  split <;> rfl

theorem signalLoss_packets (r : Buffer × Bool) : (signalLoss r).packets = r.1.packets := by
  unfold signalLoss
  split <;> rfl

theorem signalLoss_prevSN (r : Buffer × Bool) : (signalLoss r).prevSN = r.1.prevSN := by
  unfold signalLoss
  split <;> rfl

theorem signalLoss_emitted (r : Buffer × Bool) : (signalLoss r).emitted = r.1.emitted := by
  unfold signalLoss
  split <;> rfl

theorem signalLoss_lossCalls_le (r : Buffer × Bool) :
    (signalLoss r).lossCalls ≤ r.1.lossCalls + 1 := by
  unfold signalLoss
  split <;> simp

theorem dropLoop_lossCalls (fuel : Nat) : ∀ (b : Buffer) (e : Int) (dr : Bool),
    ((dropLoop fuel b e dr).1).lossCalls = b.lossCalls := by
  induction fuel with
  | zero => intro b e dr; rfl
  | succ n ih =>
    intro b e dr
    unfold dropLoop
    cases hp : b.packets with
    | nil => rfl
    | cons c cs =>
      dsimp only
      split
      · rfl
      · split
        · rw [ih, dropStep_lossCalls]
        · rfl


/-! ### Claim C1 -/

/-- Claim C1 as stated is false: after push 100 (emitted) and push 50000,
`withinRange(50000, 100)` is indeed false, but the packet 50000 is never
delivered to the consumer; instead the stale check drops it
(`packets_dropped` becomes 1) and the list stays empty. -/
theorem C1_counterexample :
    withinRange 50000 100 = false ∧
    (¬ ∃ s ∈ C1_run.emitted, ∃ p ∈ s, p.seq = 50000) ∧
    C1_run.stats.packetsDropped = 1 ∧
    C1_run.packets = [] := by decide

/-- Claim C1, amended: `withinRange(50000, 100)` is false, but
`before(50000, 100)` is true (the wrap distance from 50000 forward to 100
is 15636 < 0x8000), so `push` treats the packet as stale: it is dropped
rather than inserted, `packets_dropped` is incremented, the loss callback
fires once, only packet 100 is delivered, and `packets_lost` is not
incremented. -/
theorem C1_amended :
    before 50000 100 = true ∧
    C1_run.emitted.map (fun s => s.map Packet.seq) = [[100]] ∧
    C1_run.stats.packetsDropped = 1 ∧
    C1_run.lossCalls = 1 ∧
    C1_run.stats.packetsLost = 0 ∧
    C1_run.packets = [] := by decide

/-! ### Claim C2 -/

/-- Claim C2 as stated is false: a single `popReady` invocation that both
drops an incomplete expired head (102) and then emits an overdue
non-contiguous sample (104) invokes the loss callback twice — once from
`dropIncompleteExpired` and once from the emit loop. -/
theorem C2_counterexample :
    C2_pre.lossCalls = 0 ∧ (popReady C2_pre 200).lossCalls = 2 := by decide

/-- Claim C2, amended: one `popReady` invocation invokes the loss callback
at most twice — at most once from `dropIncompleteExpired` and at most once
for the emit loop (each of the two sites coalesces its own losses). -/
theorem C2_amended (b : Buffer) (now : Int) :
    (popReady b now).lossCalls ≤ b.lossCalls + 2 := by
  unfold popReady dropIncompleteExpired
  dsimp only
  have h1 := signalLoss_lossCalls_le
    (popReadyLoop (signalLoss (dropLoop b.packets.length b (now - b.latency) false)).packets.length
      (signalLoss (dropLoop b.packets.length b (now - b.latency) false)) (now - b.latency) false)
  have h2 := popReadyLoop_lossCalls
    (signalLoss (dropLoop b.packets.length b (now - b.latency) false)).packets.length
    (signalLoss (dropLoop b.packets.length b (now - b.latency) false)) (now - b.latency) false
  have h3 := signalLoss_lossCalls_le (dropLoop b.packets.length b (now - b.latency) false)
  have h4 := dropLoop_lossCalls b.packets.length b (now - b.latency) false
  omega

/-! ### Claim C3 -/

/-- The defining equation of the emit loop at positive fuel. -/
theorem popReadyLoop_succ (fuel : Nat) (b : Buffer) (e : Int) (loss : Bool) :
    popReadyLoop (fuel + 1) b e loss =
      (match b.packets with
      | [] => (b, loss)
      | c :: _ =>
        if isComplete b.packets then
          if c.seq == (b.prevSN + 1) % 65536 || c.discont || !b.initialized then
            popReadyLoop fuel (emitStep b) e loss
          else if c.receivedAt < e then
            popReadyLoop fuel (emitStep (addLost b c.seq)) e true
          else (b, loss)
        else (b, loss)) := rfl

/-- Claim C3: one iteration of the emit loop of `popReady`, with the head a
complete sample and `expiry = now - latency`.  The sample is emitted
(`emitStep`) when `head.seq = prevSN + 1` (mod 2^16) or `head.discont` or
not yet initialized; otherwise, if `head.received_at` is before expiry it is
emitted anyway with `packets_lost` increased by `head.seq - prevSN - 1`
(mod 2^16, `gap16`) and the sticky loss flag set to true; otherwise the
loop stops without emitting. -/
theorem C3_emit_loop (fuel : Nat) (b : Buffer) (now : Int) (loss : Bool)
    (c : Packet) (cs : List Packet)
    (hp : b.packets = c :: cs) (hcomp : isComplete b.packets = true) :
    ((c.seq == (b.prevSN + 1) % 65536 || c.discont || !b.initialized) = true →
      popReadyLoop (fuel + 1) b (now - b.latency) loss
        = popReadyLoop fuel (emitStep b) (now - b.latency) loss) ∧
    ((c.seq == (b.prevSN + 1) % 65536 || c.discont || !b.initialized) = false →
      c.receivedAt < now - b.latency →
      popReadyLoop (fuel + 1) b (now - b.latency) loss
        = popReadyLoop fuel
            (emitStep { b with stats := { b.stats with
              packetsLost := b.stats.packetsLost + gap16 c.seq b.prevSN } })
            (now - b.latency) true) ∧
    ((c.seq == (b.prevSN + 1) % 65536 || c.discont || !b.initialized) = false →
      ¬ c.receivedAt < now - b.latency →
      popReadyLoop (fuel + 1) b (now - b.latency) loss = (b, loss)) := by
  rw [hp] at hcomp
  refine ⟨?_, ?_, ?_⟩
  · intro h1
    rw [popReadyLoop_succ]
    simp [hp, hcomp, h1]
  · intro h1 h2
    rw [popReadyLoop_succ]
    simp [hp, hcomp, h1, h2, addLost]
  · intro h1 h2
    rw [popReadyLoop_succ]
    simp [hp, hcomp, h1, h2]

/-- Witness for C3: the break case at a concrete buffer whose complete head
(sequence 5) is neither contiguous with `prevSN = 0` nor `discont` nor
expired at `now = 0`; the loop leaves the buffer untouched. -/
theorem C3_witness :
    popReadyLoop 1 C3_B (0 - C3_B.latency) false = (C3_B, false) :=
  (C3_emit_loop 0 C3_B 0 false ⟨5, false, true, true, 0, false⟩ [] rfl (by decide)).2.2
    (by decide) (by decide)

/-! ### Claim C8 -/

/-- Claim C8: if `initialized` and `before(seq, prevSN)`, the pushed packet
is not inserted (the list, `prevSN` and the delivery log are unchanged), and
for a non-padding packet `packets_dropped` is incremented by one and the
loss callback is signaled (when a handler is installed), after which `push`
returns. -/
theorem C8_stale_drop (b : Buffer) (pkt : InPacket) (now : Int)
    (hinit : b.initialized = true) (hb : before pkt.seq b.prevSN = true) :
    (push b pkt now).packets = b.packets ∧
    (pkt.padding = false →
      (push b pkt now).stats.packetsDropped = b.stats.packetsDropped + 1 ∧
      (push b pkt now).lossCalls
        = (if b.hasLossHandler then b.lossCalls + 1 else b.lossCalls)) ∧
    (push b pkt now).prevSN = b.prevSN ∧
    (push b pkt now).emitted = b.emitted ∧
    (push b pkt now).stats.packetsLost = b.stats.packetsLost := by
  cases hpad : pkt.padding <;>
    simp [push, hinit, hb, hpad]

/-- Witness for C8: pushing stale sequence 99 after 100 was delivered
leaves the list unchanged and counts one dropped packet. -/
theorem C8_witness :
    (push C8_B ⟨99, false, true, true⟩ 5).packets = C8_B.packets ∧
    (push C8_B ⟨99, false, true, true⟩ 5).stats.packetsDropped
      = C8_B.stats.packetsDropped + 1 := by
  have h := C8_stale_drop C8_B ⟨99, false, true, true⟩ 5 (by decide) (by decide)
  exact ⟨h.1, (h.2.1 (by decide)).1⟩


/-! ### Claim C6: what the pop path removes, and where `prevSN` goes -/

theorem getLastD_append {α : Type} (A B : List α) (d : α) :
    (A ++ B).getLastD d = B.getLastD (A.getLastD d) := by
  induction A generalizing d with
  | nil => rfl
  | cons a A ih => rw [List.cons_append, List.getLastD_cons, List.getLastD_cons, ih]

theorem getLastD_take_add {α : Type} (l : List α) (d : α) (k0 k' : Nat) :
    ((l.drop k0).take k').getLastD ((l.take k0).getLastD d) = (l.take (k0 + k')).getLastD d := by
  rw [List.take_add, getLastD_append]

theorem popSampleList_rest (prev : Nat) (l : List Packet) :
    (popSampleList prev l).2.1 = l.drop (popSampleList prev l).2.2.1 := by
  induction l generalizing prev with
  | nil => rfl
  | cons c cs ih =>
    unfold popSampleList
    dsimp only
    split
    · rfl
    · dsimp only
      rw [List.drop_succ_cons]
      exact ih c.seq

theorem popSampleList_lastSeq (prev : Nat) (l : List Packet) :
    (popSampleList prev l).2.2.2
      = ((l.take (popSampleList prev l).2.2.1).map Packet.seq).getLastD prev := by
  induction l generalizing prev with
  | nil => rfl
  | cons c cs ih =>
    unfold popSampleList
    dsimp only
    split
    · simp
    · dsimp only
      rw [List.take_succ_cons, List.map_cons, List.getLastD_cons]
      exact ih c.seq

theorem addLost_packets (b : Buffer) (s : Nat) : (addLost b s).packets = b.packets := by
  unfold addLost; rfl

theorem addLost_prevSN (b : Buffer) (s : Nat) : (addLost b s).prevSN = b.prevSN := by
  unfold addLost; rfl

theorem emitStep_packets (b : Buffer) :
    (emitStep b).packets
      = b.packets.drop (popSampleList b.prevSN b.packets).2.2.1 := by
  unfold emitStep popSample
  dsimp only
  rw [← popSampleList_rest]
  split <;> rfl

theorem emitStep_prevSN (b : Buffer) :
    (emitStep b).prevSN
      = ((b.packets.take (popSampleList b.prevSN b.packets).2.2.1).map Packet.seq).getLastD
          b.prevSN := by
  unfold emitStep popSample
  dsimp only
  rw [← popSampleList_lastSeq]
  split <;> rfl

theorem removes_compose (l : List Packet) (d : Nat) (k0 k' : Nat) :
    (((l.drop k0).take k').map Packet.seq).getLastD (((l.take k0).map Packet.seq).getLastD d)
      = ((l.take (k0 + k')).map Packet.seq).getLastD d := by
  simp only [List.map_take, List.map_drop]
  exact getLastD_take_add (l.map Packet.seq) d k0 k'

theorem popReadyLoop_removes (fuel : Nat) : ∀ (b : Buffer) (e : Int) (loss : Bool),
    ∃ k, ((popReadyLoop fuel b e loss).1).packets = b.packets.drop k ∧
      ((popReadyLoop fuel b e loss).1).prevSN
        = ((b.packets.take k).map Packet.seq).getLastD b.prevSN := by
  induction fuel with
  | zero => intro b e loss; exact ⟨0, rfl, rfl⟩
  | succ n ih =>
    intro b e loss
    rw [popReadyLoop_succ]
    cases hp : b.packets with
    | nil => exact ⟨0, by simp [hp], by simp [hp]⟩
    | cons c cs =>
      dsimp only
      split
      case isTrue hcomp =>
        split
        case isTrue h1 =>
          obtain ⟨k', h2p, h2s⟩ := ih (emitStep b) e loss
          have hesp := emitStep_packets b
          have hess := emitStep_prevSN b
          rw [hp] at hesp hess
          refine ⟨(popSampleList b.prevSN (c :: cs)).2.2.1 + k', ?_, ?_⟩
          · rw [h2p, hesp, List.drop_drop]
          · rw [h2s, hesp, hess, removes_compose]
        case isFalse h1 =>
          split
          case isTrue h2 =>
            obtain ⟨k', h2p, h2s⟩ := ih (emitStep (addLost b c.seq)) e true
            have hesp := emitStep_packets (addLost b c.seq)
            have hess := emitStep_prevSN (addLost b c.seq)
            rw [addLost_packets, addLost_prevSN, hp] at hesp hess
            refine ⟨(popSampleList b.prevSN (c :: cs)).2.2.1 + k', ?_, ?_⟩
            · rw [h2p, hesp, List.drop_drop]
            · rw [h2s, hesp, hess, removes_compose]
          case isFalse h2 => exact ⟨0, by simp [hp], by simp [hp]⟩
      case isFalse hcomp => exact ⟨0, by simp [hp], by simp [hp]⟩

theorem dropLoop_succ (fuel : Nat) (b : Buffer) (e : Int) (dropped : Bool) :
    dropLoop (fuel + 1) b e dropped =
      (match b.packets with
      | [] => (b, dropped)
      | c :: cs =>
        if isComplete b.packets then (b, dropped)
        else if c.receivedAt < e then dropLoop fuel (dropStep b c cs) e true
        else (b, dropped)) := rfl

theorem dropLoop_removes (fuel : Nat) : ∀ (b : Buffer) (e : Int) (dr : Bool),
    ∃ k, ((dropLoop fuel b e dr).1).packets = b.packets.drop k ∧
      ((dropLoop fuel b e dr).1).prevSN
        = ((b.packets.take k).map Packet.seq).getLastD b.prevSN := by
  induction fuel with
  | zero => intro b e dr; exact ⟨0, rfl, rfl⟩
  | succ n ih =>
    intro b e dr
    rw [dropLoop_succ]
    cases hp : b.packets with
    | nil => exact ⟨0, by simp [hp], by simp [hp]⟩
    | cons c cs =>
      dsimp only
      split
      case isTrue hcomp => exact ⟨0, by simp [hp], by simp [hp]⟩
      case isFalse hcomp =>
        split
        case isTrue h2 =>
          obtain ⟨k', h2p, h2s⟩ := ih (dropStep b c cs) e true
          refine ⟨1 + k', ?_, ?_⟩
          · rw [h2p, dropStep_packets, Nat.add_comm 1 k', List.drop_succ_cons]
          · rw [h2s, dropStep_packets, dropStep_prevSN, Nat.add_comm 1 k', List.take_succ_cons,
              List.map_cons, List.getLastD_cons]
        case isFalse h2 => exact ⟨0, by simp [hp], by simp [hp]⟩

/-- `popReady` only removes packets from the head of the list, and leaves
`prevSN` at the sequence number of the last removed node (whether that node
was emitted to the consumer or dropped), or unchanged if nothing was
removed. -/
theorem popReady_removes (b : Buffer) (now : Int) :
    ∃ k, (popReady b now).packets = b.packets.drop k ∧
      (popReady b now).prevSN
        = ((b.packets.take k).map Packet.seq).getLastD b.prevSN := by
  unfold popReady dropIncompleteExpired
  dsimp only
  obtain ⟨k1, h1p, h1s⟩ := dropLoop_removes b.packets.length b (now - b.latency) false
  obtain ⟨k2, h2p, h2s⟩ := popReadyLoop_removes
    (signalLoss (dropLoop b.packets.length b (now - b.latency) false)).packets.length
    (signalLoss (dropLoop b.packets.length b (now - b.latency) false)) (now - b.latency) false
  refine ⟨k1 + k2, ?_, ?_⟩
  · rw [signalLoss_packets, h2p, signalLoss_packets, h1p, List.drop_drop]
  · rw [signalLoss_prevSN, h2s, signalLoss_packets, signalLoss_prevSN, h1p, h1s,
      removes_compose]


theorem insertPacket_fields (b : Buffer) (p : Packet) (d : Bool) :
    (insertPacket b p d).prevSN = b.prevSN ∧
    (insertPacket b p d).stats = b.stats ∧
    (insertPacket b p d).lossCalls = b.lossCalls ∧
    (insertPacket b p d).emitted = b.emitted ∧
    (insertPacket b p d).initialized = b.initialized ∧
    (insertPacket b p d).size = b.size := by
  unfold insertPacket
  cases hp : b.packets
  case nil => exact ⟨rfl, rfl, rfl, rfl, rfl, rfl⟩
  case cons hd rest =>
    dsimp only
    repeat' split
    all_goals exact ⟨rfl, rfl, rfl, rfl, rfl, rfl⟩

theorem push_prevSN (b : Buffer) (pkt : InPacket) (now : Int) :
    (push b pkt now).prevSN = b.prevSN := by
  unfold push
  dsimp only
  repeat' split
  all_goals first
    | rfl
    | exact (insertPacket_fields _ _ _).1

/-- Claim C6 as stated is false: after packet 100 is delivered and the
non-start packet 200 expires incomplete, `dropIncompleteExpired` removes it
through `popHead`, which advances `prevSN` to 200 — yet the last packet
emitted to the consumer is still 100 and the delivery log is unchanged. -/
theorem C6_counterexample :
    C6_pre.prevSN = 100 ∧
    C6_run.initialized = true ∧
    C6_run.emitted = C6_pre.emitted ∧
    C6_run.emitted.map (fun s => s.map Packet.seq) = [[100]] ∧
    C6_run.prevSN = 200 := by decide

/-- Claim C6, amended: `prevSN` is the sequence number of the last node
removed from the head of the list, whether it was emitted or dropped:
`push` never modifies `prevSN`, while `popReady` removes a prefix of `k`
nodes and leaves `prevSN` at the sequence number of the `k`-th removed node
(unchanged when `k = 0`); `dropIncompleteExpired` therefore advances
`prevSN` past nodes that were never emitted. -/
theorem C6_amended (b : Buffer) (now : Int) (pkt : InPacket) :
    (push b pkt now).prevSN = b.prevSN ∧
    ∃ k, (popReady b now).packets = b.packets.drop k ∧
      (popReady b now).prevSN
        = ((b.packets.take k).map Packet.seq).getLastD b.prevSN :=
  ⟨push_prevSN b pkt now, popReady_removes b now⟩

/-! ### Claim C7 -/

theorem popSampleList_sample_not_padding (prev : Nat) (l : List Packet) :
    ∀ p ∈ (popSampleList prev l).1, p.padding = false := by
  induction l generalizing prev with
  | nil => intro p hp; cases hp
  | cons c cs ih =>
    intro p hp
    unfold popSampleList at hp
    dsimp only at hp
    split at hp
    · split at hp
      · cases hp
      · rename_i hpad
        rcases List.mem_singleton.mp hp with rfl
        simpa using hpad
    · split at hp
      · exact ih c.seq p hp
      · rename_i hpad
        rcases List.mem_cons.mp hp with rfl | h
        · simpa using hpad
        · exact ih c.seq p h

theorem addLost_emitted (b : Buffer) (s : Nat) : (addLost b s).emitted = b.emitted := by
  unfold addLost
  rfl

theorem emitStep_emitted_eq (b : Buffer) : ∃ E,
    (emitStep b).emitted = b.emitted ++ E ∧ ∀ s ∈ E, ∀ p ∈ s, p.padding = false := by
  unfold emitStep
  dsimp only
  split
  · exact ⟨[], by simp [popSample_emitted], by simp⟩
  · refine ⟨[(popSample b).1], rfl, ?_⟩
    intro s hs
    rcases List.mem_singleton.mp hs with rfl
    exact popSampleList_sample_not_padding b.prevSN b.packets

theorem popReadyLoop_emitted (fuel : Nat) : ∀ (b : Buffer) (e : Int) (loss : Bool),
    ∃ E, ((popReadyLoop fuel b e loss).1).emitted = b.emitted ++ E ∧
      ∀ s ∈ E, ∀ p ∈ s, p.padding = false := by
  induction fuel with
  | zero => intro b e loss; exact ⟨[], by simp [popReadyLoop], by simp⟩
  | succ n ih =>
    intro b e loss
    rw [popReadyLoop_succ]
    cases hp : b.packets with
    | nil => exact ⟨[], by simp [hp], by simp⟩
    | cons c cs =>
      dsimp only
      split
      case isTrue hcomp =>
        split
        case isTrue h1 =>
          obtain ⟨E1, hE1, hE1p⟩ := emitStep_emitted_eq b
          obtain ⟨E2, hE2, hE2p⟩ := ih (emitStep b) e loss
          refine ⟨E1 ++ E2, ?_, ?_⟩
          · rw [hE2, hE1, List.append_assoc]
          · intro s hs
            rcases List.mem_append.mp hs with h | h
            · exact hE1p s h
            · exact hE2p s h
        case isFalse h1 =>
          split
          case isTrue h2 =>
            obtain ⟨E1, hE1, hE1p⟩ := emitStep_emitted_eq (addLost b c.seq)
            obtain ⟨E2, hE2, hE2p⟩ := ih (emitStep (addLost b c.seq)) e true
            rw [addLost_emitted] at hE1
            refine ⟨E1 ++ E2, ?_, ?_⟩
            · rw [hE2, hE1, List.append_assoc]
            · intro s hs
              rcases List.mem_append.mp hs with h | h
              · exact hE1p s h
              · exact hE2p s h
          case isFalse h2 => exact ⟨[], by simp, by simp⟩
      case isFalse hcomp => exact ⟨[], by simp, by simp⟩

theorem dropLoop_emitted (fuel : Nat) : ∀ (b : Buffer) (e : Int) (dr : Bool),
    ((dropLoop fuel b e dr).1).emitted = b.emitted := by
  induction fuel with
  | zero => intro b e dr; rfl
  | succ n ih =>
    intro b e dr
    unfold dropLoop
    cases hp : b.packets with
    | nil => rfl
    | cons c cs =>
      dsimp only
      split
      · rfl
      · split
        · rw [ih, dropStep_emitted]
        · rfl

theorem popReady_emitted (b : Buffer) (now : Int) :
    ∀ s ∈ (popReady b now).emitted, s ∈ b.emitted ∨ ∀ p ∈ s, p.padding = false := by
  intro s hs
  unfold popReady dropIncompleteExpired at hs
  rw [signalLoss_emitted] at hs
  obtain ⟨E, hE, hEp⟩ := popReadyLoop_emitted
    (signalLoss (dropLoop b.packets.length b (now - b.latency) false)).packets.length
    (signalLoss (dropLoop b.packets.length b (now - b.latency) false)) (now - b.latency) false
  rw [hE, signalLoss_emitted, dropLoop_emitted] at hs
  rcases List.mem_append.mp hs with h | h
  · exact Or.inl h
  · exact Or.inr (hEp s h)

/-- Claim C7 as stated is false: a padding packet that is enqueued (the
buffer is initialized) and whose payload the depacketizer does not mark as
a partition head can expire incomplete at the head of the list, and
`dropIncompleteExpired` then counts it in `packets_dropped`: here the only
packet in the buffer is the padding packet 101, and the timer fire bumps
`packets_dropped` from 0 to 1. -/
theorem C7_counterexample :
    C7_pre.packets.map (fun p => (p.seq, p.padding)) = [(101, true)] ∧
    C7_pre.stats.packetsDropped = 0 ∧
    C7_run.stats.packetsDropped = 1 ∧
    C7_run.packets = [] := by decide

/-- Claim C7, amended: during `push` a padding packet never changes
`packets_dropped`, `packets_lost` or the loss-callback count, and a sample
delivered to the consumer never contains a padding packet; however, an
enqueued padding packet that expires incomplete at the head of the list is
counted in `packets_dropped` by `dropIncompleteExpired`. -/
theorem C7_amended :
    (∀ (b : Buffer) (pkt : InPacket) (now : Int), pkt.padding = true →
      (push b pkt now).stats.packetsDropped = b.stats.packetsDropped ∧
      (push b pkt now).stats.packetsLost = b.stats.packetsLost ∧
      (push b pkt now).lossCalls = b.lossCalls) ∧
    (∀ (b : Buffer) (now : Int), ∀ s ∈ (popReady b now).emitted,
      s ∈ b.emitted ∨ ∀ p ∈ s, p.padding = false) := by
  constructor
  · intro b pkt now hpad
    unfold push
    dsimp only
    rw [hpad]
    repeat' split
    all_goals first
      | exact ⟨rfl, rfl, rfl⟩
      | exact ⟨by rw [(insertPacket_fields _ _ _).2.1],
          by rw [(insertPacket_fields _ _ _).2.1],
          by rw [(insertPacket_fields _ _ _).2.2.1]⟩
      | simp_all
  · exact popReady_emitted

/-- Witness for C7: pushing a padding packet into a fresh buffer leaves the
drop and loss counters untouched, and a delivered sample of the C1 run
contains no padding. -/
theorem C7_witness :
    (push (NewBuffer 100 true) ⟨7, true, true, true⟩ 0).stats.packetsDropped
        = (NewBuffer 100 true).stats.packetsDropped ∧
    (push (NewBuffer 100 true) ⟨7, true, true, true⟩ 0).lossCalls
        = (NewBuffer 100 true).lossCalls := by
  have h := C7_amended.1 (NewBuffer 100 true) ⟨7, true, true, true⟩ 0 (by decide)
  exact ⟨h.1, h.2.2⟩

/-! ### Claim C10 -/

theorem popSampleList_all_padding (prev : Nat) (l : List Packet)
    (h : ∀ p ∈ l, p.padding = true) : (popSampleList prev l).1 = [] := by
  induction l generalizing prev with
  | nil => rfl
  | cons c cs ih =>
    have hc := h c (List.mem_cons_self c cs)
    unfold popSampleList
    dsimp only
    split
    · simp [hc]
    · simp only [hc, if_pos]
      exact ih c.seq fun p hp => h p (List.mem_cons_of_mem c hp)

theorem signalLoss_false (x : Buffer) : signalLoss (x, false) = x := by
  simp [signalLoss]

/-- Claim C10: when the head of the list is a complete sample consisting
entirely of padding packets (spanning the whole list here) and the emit
condition holds, `popReady` consumes it — every node is counted in
`packets_popped`, `samples_popped` is incremented, `prevSN` advances to the
last popped node, `initialized` becomes true and `size` drops — but the
consumer callback is never invoked (`emitted` is unchanged), because the
sample slice is empty; the loss callback is not invoked either. -/
theorem C10_padding_sample (b : Buffer) (now : Int) (c : Packet) (cs : List Packet)
    (hp : b.packets = c :: cs)
    (hcomp : isComplete b.packets = true)
    (hpad : ∀ p ∈ b.packets, p.padding = true)
    (hrest : (popSampleList b.prevSN b.packets).2.1 = [])
    (hcond : (c.seq == (b.prevSN + 1) % 65536 || c.discont || !b.initialized) = true) :
    popReady b now = { b with
      packets := [], initialized := true,
      prevSN := (popSampleList b.prevSN b.packets).2.2.2,
      size := b.size - (popSampleList b.prevSN b.packets).2.2.1,
      stats := { b.stats with
        packetsPopped := b.stats.packetsPopped + (popSampleList b.prevSN b.packets).2.2.1,
        samplesPopped := b.stats.samplesPopped + 1 } } := by
  have hsample : (popSampleList b.prevSN b.packets).1 = [] :=
    popSampleList_all_padding b.prevSN b.packets hpad
  have hemit : emitStep b = (popSample b).2 := by
    unfold emitStep
    dsimp only
    rw [if_pos]
    rw [List.isEmpty_iff]
    exact hsample
  unfold popReady dropIncompleteExpired
  dsimp only
  rw [dropLoop_complete _ _ _ _ hcomp, signalLoss_false]
  rw [hp, List.length_cons, popReadyLoop_succ]
  rw [← hp]
  rw [hp] at hcomp
  simp only [hp, hcomp, hcond, if_pos]
  rw [← hp, hemit]
  have hnil : ((popSample b).2).packets = [] := hrest
  rw [popReadyLoop_nil _ _ _ _ hnil, signalLoss_false]
  unfold popSample
  dsimp only
  rw [hrest]

/-- Witness for C10: a buffer holding one complete two-packet all-padding
sample; `popReady` consumes both packets without any consumer callback. -/
theorem C10_witness :
    (popReady C10_B 0).emitted = [] ∧
    (popReady C10_B 0).stats.samplesPopped = 1 ∧
    (popReady C10_B 0).stats.packetsPopped = 2 ∧
    (popReady C10_B 0).packets = [] ∧
    (popReady C10_B 0).prevSN = 11 ∧
    (popReady C10_B 0).initialized = true := by
  have h := C10_padding_sample C10_B 0 ⟨10, true, true, false, 0, false⟩
    [⟨11, true, false, true, 0, false⟩] rfl (by decide) (by decide) (by decide) (by decide)
  rw [h]
  exact ⟨rfl, by decide, by decide, rfl, by decide, rfl⟩


/-! ### Claim C9: the scans always find an insertion point -/

theorem getLastD_mem {α : Type} (d : α) : ∀ (l : List α), l ≠ [] → l.getLastD d ∈ l := by
  intro l
  induction l generalizing d with
  | nil => intro h; exact absurd rfl h
  | cons a t ih =>
    intro _
    rw [List.getLastD_cons]
    cases ht : t with
    | nil => simp
    | cons b t2 =>
      rw [← ht]
      exact List.mem_cons_of_mem a (ih a (by rw [ht]; exact List.cons_ne_nil b t2))

theorem reverse_decomp {α : Type} (hd : α) (rest : List α) :
    (hd :: rest).reverse = rest.getLastD hd :: (hd :: rest).reverse.tail := by
  induction rest generalizing hd with
  | nil => simp
  | cons b t ih =>
    rw [List.reverse_cons, ih b, List.getLastD_cons, List.cons_append, List.tail_cons]

/-- Specification of the backward scan: on success the scanned segment
splits as `s1 ++ c :: s2` where every element of `s1` was passed (the
packet is before it and within range) and the insertion condition holds at
`c`; the result splices the node (with its `discont` flag set from the
range test at `c`) in front of `c`. -/
theorem scanBack_eq_some (p : Packet) : ∀ (sl r : List Packet), scanBack p sl = some r →
    ∃ s1 c s2, sl = s1 ++ c :: s2 ∧
      r = s1 ++ { p with discont := !withinRange p.seq c.seq && p.start } :: c :: s2 ∧
      (∀ x ∈ s1, before p.seq x.seq = true ∧ withinRange p.seq x.seq = true) ∧
      (before p.seq c.seq = false ∨ withinRange p.seq c.seq = false) := by
  intro sl
  induction sl with
  | nil => intro r h; cases h
  | cons c cs ih =>
    intro r h
    unfold scanBack at h
    dsimp only at h
    split at h
    case isTrue hcond =>
      injection h with h
      refine ⟨[], c, cs, rfl, by rw [← h, List.nil_append], by simp, ?_⟩
      simpa [Bool.or_eq_true, Bool.not_eq_true'] using hcond
    case isFalse hcond =>
      rw [Option.map_eq_some'] at h
      obtain ⟨r', hr', hrr⟩ := h
      obtain ⟨s1, c0, s2, hsl, hr, hpass, hc0⟩ := ih r' hr'
      refine ⟨c :: s1, c0, s2, by rw [List.cons_append, hsl],
        by rw [← hrr, hr, List.cons_append], ?_, hc0⟩
      intro x hx
      rcases List.mem_cons.mp hx with rfl | hx
      · have h2 : ¬(before p.seq x.seq = false ∨ withinRange p.seq x.seq = false) := by
          intro h3
          apply hcond
          simpa [Bool.or_eq_true, Bool.not_eq_true'] using h3
        constructor
        · cases h4 : before p.seq x.seq
          · exact absurd (Or.inl h4) h2
          · rfl
        · cases h4 : withinRange p.seq x.seq
          · exact absurd (Or.inr h4) h2
          · rfl
      · exact hpass x hx

/-- The backward scan succeeds as soon as some scanned element satisfies
the insertion condition. -/
theorem scanBack_isSome (p : Packet) : ∀ (sl : List Packet),
    (∃ x ∈ sl, before p.seq x.seq = false ∨ withinRange p.seq x.seq = false) →
    (scanBack p sl).isSome = true := by
  intro sl
  induction sl with
  | nil => rintro ⟨x, hx, _⟩; cases hx
  | cons c cs ih =>
    rintro ⟨x, hx, hcond⟩
    unfold scanBack
    dsimp only
    split
    · rfl
    case isFalse hc =>
      rcases List.mem_cons.mp hx with rfl | hx2
      · exfalso
        apply hc
        simpa [Bool.or_eq_true, Bool.not_eq_true'] using hcond
      · have hi := ih ⟨x, hx2, hcond⟩
        cases hs : scanBack p cs with
        | none => rw [hs] at hi; cases hi
        | some r2 => rfl

/-- Specification of the forward scan, analogous to `scanBack_eq_some`;
here the node is inserted before `c` and its `discont` flag is left
untouched. -/
theorem scanFwd_eq_some (p : Packet) : ∀ (sl r : List Packet), scanFwd p sl = some r →
    ∃ f1 c f2, sl = f1 ++ c :: f2 ∧
      r = f1 ++ p :: c :: f2 ∧
      (∀ x ∈ f1, before p.seq x.seq = false ∧ withinRange p.seq x.seq = true) ∧
      (before p.seq c.seq = true ∨ withinRange p.seq c.seq = false) := by
  intro sl
  induction sl with
  | nil => intro r h; cases h
  | cons c cs ih =>
    intro r h
    unfold scanFwd at h
    dsimp only at h
    split at h
    case isTrue hcond =>
      injection h with h
      refine ⟨[], c, cs, rfl, by rw [← h, List.nil_append], by simp, ?_⟩
      simpa [Bool.or_eq_true, Bool.not_eq_true'] using hcond
    case isFalse hcond =>
      rw [Option.map_eq_some'] at h
      obtain ⟨r', hr', hrr⟩ := h
      obtain ⟨f1, c0, f2, hsl, hr, hpass, hc0⟩ := ih r' hr'
      refine ⟨c :: f1, c0, f2, by rw [List.cons_append, hsl],
        by rw [← hrr, hr, List.cons_append], ?_, hc0⟩
      intro x hx
      rcases List.mem_cons.mp hx with rfl | hx
      · have h2 : ¬(before p.seq x.seq = true ∨ withinRange p.seq x.seq = false) := by
          intro h3
          apply hcond
          simpa [Bool.or_eq_true, Bool.not_eq_true'] using h3
        constructor
        · cases h4 : before p.seq x.seq
          · rfl
          · exact absurd (Or.inl h4) h2
        · cases h4 : withinRange p.seq x.seq
          · exact absurd (Or.inr h4) h2
          · rfl
      · exact hpass x hx

/-- The forward scan succeeds as soon as some scanned element satisfies the
insertion condition. -/
theorem scanFwd_isSome (p : Packet) : ∀ (sl : List Packet),
    (∃ x ∈ sl, before p.seq x.seq = true ∨ withinRange p.seq x.seq = false) →
    (scanFwd p sl).isSome = true := by
  intro sl
  induction sl with
  | nil => rintro ⟨x, hx, _⟩; cases hx
  | cons c cs ih =>
    rintro ⟨x, hx, hcond⟩
    unfold scanFwd
    dsimp only
    split
    · rfl
    case isFalse hc =>
      rcases List.mem_cons.mp hx with rfl | hx2
      · exfalso
        apply hc
        simpa [Bool.or_eq_true, Bool.not_eq_true'] using hcond
      · have hi := ih ⟨x, hx2, hcond⟩
        cases hs : scanFwd p cs with
        | none => rw [hs] at hi; cases hi
        | some r2 => rfl


/-- Every call of `insertPacket` on reachable guard combinations splices
exactly one node: the new list is the old list with one new node inserted
somewhere, and the node carries the pushed packet's data.  The scans cannot
run off the end of the list: the backward scan's condition holds at the
head at the latest (because the prepend guard failed), and the forward
scan's condition holds at the tail at the latest (because
`withinTailRange` is false in that branch). -/
theorem insertPacket_splice (b : Buffer) (p : Packet) (d : Bool) :
    ∃ q l1 l2, (insertPacket b p d).packets = l1 ++ q :: l2 ∧ b.packets = l1 ++ l2 ∧
      q.seq = p.seq ∧ q.receivedAt = p.receivedAt ∧ q.padding = p.padding ∧
      q.start = p.start ∧ q.end_ = p.end_ := by
  unfold insertPacket
  cases hp : b.packets with
  | nil =>
    dsimp only
    exact ⟨{ p with discont := d && p.start }, [], [], rfl, rfl, rfl, rfl, rfl, rfl, rfl⟩
  | cons hd rest =>
    dsimp only
    split
    case isTrue hc1 =>
      exact ⟨{ p with discont := d && p.start }, [], hd :: rest, rfl, rfl, rfl, rfl, rfl,
        rfl, rfl⟩
    case isFalse hc1 =>
      split
      case isTrue hc2 =>
        exact ⟨p, hd :: rest, [], by simp, by simp, rfl, rfl, rfl, rfl, rfl⟩
      case isFalse hc2 =>
        split
        case isTrue hc3 =>
          cases hs : scanBack p (hd :: rest).reverse.tail with
          | some r =>
            obtain ⟨s1, c, s2, hsl, hr, hpass, hcnd⟩ := scanBack_eq_some p _ r hs
            refine ⟨{ p with discont := !withinRange p.seq c.seq && p.start },
              s2.reverse ++ [c], s1.reverse ++ [rest.getLastD hd], ?_, ?_,
              rfl, rfl, rfl, rfl, rfl⟩
            · rw [hr]
              simp [List.reverse_append, List.append_assoc]
            · have h2 : hd :: rest = ((hd :: rest).reverse).reverse :=
                (List.reverse_reverse _).symm
              rw [h2, reverse_decomp hd rest, hsl]
              simp [List.reverse_append, List.append_assoc]
          | none =>
            exfalso
            have hrest : rest ≠ [] := by
              intro h0
              subst h0
              cases hb : before p.seq hd.seq
              · exact hc2 (by simp [hb]; simpa using hc3)
              · exact hc1 (by simp [hb]; simpa using hc3)
            obtain ⟨z, zs, hz⟩ : ∃ z zs, rest.reverse = z :: zs := by
              cases hrev : rest.reverse with
              | nil => exact absurd (by simpa using hrev) hrest
              | cons z zs => exact ⟨z, zs, rfl⟩
            have hmem : hd ∈ (hd :: rest).reverse.tail := by
              rw [List.reverse_cons, hz, List.cons_append, List.tail_cons]
              simp
            have hcond : before p.seq hd.seq = false ∨ withinRange p.seq hd.seq = false := by
              cases hb : before p.seq hd.seq
              · exact Or.inl rfl
              · cases hw : withinRange p.seq hd.seq
                · exact Or.inr rfl
                · exact absurd (by simp [hb, hw]) hc1
            have hsome := scanBack_isSome p ((hd :: rest).reverse.tail) ⟨hd, hmem, hcond⟩
            rw [hs] at hsome
            cases hsome
        case isFalse hc3 =>
          split
          case isTrue hc4 =>
            cases hs : scanFwd p rest with
            | some r =>
              obtain ⟨f1, c, f2, hsl, hr, hpass, hcnd⟩ := scanFwd_eq_some p rest r hs
              refine ⟨p, hd :: f1, c :: f2, ?_, ?_, rfl, rfl, rfl, rfl, rfl⟩
              · rw [hr]
                simp
              · rw [hsl]
                simp
            | none =>
              exfalso
              have hrest : rest ≠ [] := by
                intro h0
                subst h0
                exact hc3 (by simpa using hc4)
              have htl : rest.getLastD hd ∈ rest := getLastD_mem hd rest hrest
              have hcond : before p.seq (rest.getLastD hd).seq = true
                  ∨ withinRange p.seq (rest.getLastD hd).seq = false := by
                cases hw : withinRange p.seq (rest.getLastD hd).seq
                · exact Or.inr rfl
                · exact absurd (by simpa using hw) hc3
              have hsome := scanFwd_isSome p rest ⟨rest.getLastD hd, htl, hcond⟩
              rw [hs] at hsome
              cases hsome
          case isFalse hc4 =>
            exact ⟨{ p with discont := p.start }, hd :: rest, [], by simp, by simp,
              rfl, rfl, rfl, rfl, rfl⟩

/-- Claim C9: every push of a packet that is neither stale (initialized and
`before(seq, prevSN)`) nor padding-before-initialization splices exactly one
new node into the list: the resulting list is the old list with one node
inserted, carrying the pushed packet's sequence number (as `uint16`),
padding flag, boundary flags, and `received_at = now`; no accepted packet is
silently lost. -/
theorem C9_insert (b : Buffer) (pkt : InPacket) (now : Int)
    (h1 : b.initialized = true → before pkt.seq b.prevSN = false)
    (h2 : pkt.padding = true → b.initialized = true) :
    ∃ q l1 l2, (push b pkt now).packets = l1 ++ q :: l2 ∧
      b.packets = l1 ++ l2 ∧
      q.seq = pkt.seq % 65536 ∧ q.receivedAt = now ∧
      q.padding = pkt.padding ∧ q.start = pkt.start ∧ q.end_ = pkt.end_ := by
  unfold push
  dsimp only
  cases hpad : pkt.padding
  · cases hinit : b.initialized
    · simp
      exact insertPacket_splice _ _ _
    · have hb := h1 hinit
      simp [hb]
      exact insertPacket_splice _ _ _
  · have hinit := h2 hpad
    have hb := h1 hinit
    simp [hb, hinit]
    exact insertPacket_splice _ _ _

/-- Witness for C9: pushing sequence 101 into the initialized buffer
`C8_B` (where `prevSN = 100`) splices exactly one node. -/
theorem C9_witness :
    ∃ q l1 l2, (push C8_B ⟨101, false, true, true⟩ 5).packets = l1 ++ q :: l2 ∧
      C8_B.packets = l1 ++ l2 ∧
      q.seq = 101 % 65536 ∧ q.receivedAt = 5 ∧
      q.padding = false ∧ q.start = true ∧ q.end_ = true :=
  C9_insert C8_B ⟨101, false, true, true⟩ 5 (by decide) (by decide)


/-! ### Claim C5: the list-order invariant -/

theorem getLast?_eq_getLastD {α : Type} (hd : α) (rest : List α) :
    (hd :: rest).getLast? = some (rest.getLastD hd) := by
  induction rest generalizing hd with
  | nil => rfl
  | cons b t ih => rw [List.getLast?_cons_cons, ih b, List.getLastD_cons]

theorem head?_append_singleton {α : Type} (A : List α) (z : α) (y : α)
    (h : (A ++ [z]).head? = some y) : y ∈ A ∨ y = z := by
  cases A with
  | nil =>
    injection h with h
    exact Or.inr h.symm
  | cons a t =>
    injection h with h
    exact Or.inl (h ▸ List.mem_cons_self a t)

theorem chain'_drop {α : Type} (R : α → α → Prop) (l : List α) (k : Nat)
    (h : List.Chain' R l) : List.Chain' R (l.drop k) :=
  List.Chain'.suffix h (List.drop_suffix k l)

/-- Insertion preserves the amended adjacency invariant `pairOrdered`. -/
theorem insertPacket_chain (b : Buffer) (p : Packet) (d : Bool)
    (hch : List.Chain' pairOrdered b.packets) :
    List.Chain' pairOrdered (insertPacket b p d).packets := by
  unfold insertPacket
  cases hp : b.packets with
  | nil =>
    dsimp only
    exact List.chain'_singleton _
  | cons hd rest =>
    rw [hp] at hch
    dsimp only
    split
    case isTrue hc1 =>
      rw [List.chain'_cons]
      exact ⟨Or.inl ((Bool.and_eq_true _ _).mp hc1).1, hch⟩
    case isFalse hc1 =>
      split
      case isTrue hc2 =>
        rw [List.chain'_append]
        refine ⟨hch, List.chain'_singleton _, ?_⟩
        intro x hx y hy
        rw [getLast?_eq_getLastD, Option.mem_some_iff] at hx
        rw [List.head?_cons, Option.mem_some_iff] at hy
        subst hx
        subst hy
        simp only [Bool.and_eq_true, Bool.not_eq_true'] at hc2
        exact Or.inl (before_flip p.seq (rest.getLastD hd).seq hc2.1 hc2.2).1
      case isFalse hc2 =>
        split
        case isTrue hc3 =>
          cases hs : scanBack p (hd :: rest).reverse.tail with
          | none =>
            dsimp only
            rw [hp]
            exact hch
          | some r =>
            dsimp only
            obtain ⟨s1, c, s2, hsl, hr, hpass, hcnd⟩ := scanBack_eq_some p _ r hs
            have horig : hd :: rest
                = (s2.reverse ++ [c]) ++ (s1.reverse ++ [rest.getLastD hd]) := by
              conv_lhs => rw [← List.reverse_reverse (hd :: rest), reverse_decomp hd rest]
              rw [hsl]
              simp [List.reverse_append, List.append_assoc]
            have hnew : (rest.getLastD hd :: r).reverse
                = (s2.reverse ++ [c])
                  ++ ({ p with discont := !withinRange p.seq c.seq && p.start }
                    :: (s1.reverse ++ [rest.getLastD hd])) := by
              rw [hr]
              simp [List.reverse_append, List.append_assoc]
            rw [hnew]
            rw [horig, List.chain'_append] at hch
            obtain ⟨ch1, ch2, chlink⟩ := hch
            rw [List.chain'_append]
            refine ⟨ch1, ?_, ?_⟩
            · rw [List.chain'_cons']
              refine ⟨?_, ch2⟩
              intro y hy
              rw [Option.mem_def] at hy
              rcases head?_append_singleton s1.reverse (rest.getLastD hd) y hy with h | h
              · exact Or.inl (hpass y (List.mem_reverse.mp h)).1
              · subst h
                have hbt : before p.seq (rest.getLastD hd).seq = true := by
                  cases hb2 : before p.seq (rest.getLastD hd).seq
                  · exact absurd (by rw [hb2, hc3]; rfl) hc2
                  · rfl
                exact Or.inl hbt
            · intro x hx y hy
              rw [List.getLast?_concat, Option.mem_some_iff] at hx
              rw [List.head?_cons, Option.mem_some_iff] at hy
              subst hx
              subst hy
              by_cases hw : withinRange p.seq c.seq = true
              · have hbf : before p.seq c.seq = false := by
                  rcases hcnd with h | h
                  · exact h
                  · rw [h] at hw
                    simp at hw
                exact Or.inl (before_flip p.seq c.seq hbf hw).1
              · have hwf : withinRange p.seq c.seq = false := by
                  cases hw2 : withinRange p.seq c.seq
                  · rfl
                  · exact absurd hw2 hw
                cases hst : p.start
                · exact Or.inr (Or.inr (by simp [hst]))
                · exact Or.inr (Or.inl (by simp [hwf, hst]))
        case isFalse hc3 =>
          split
          case isTrue hc4 =>
            cases hs : scanFwd p rest with
            | none =>
              dsimp only
              rw [hp]
              exact hch
            | some r =>
              dsimp only
              obtain ⟨f1, c, f2, hsl, hr, hpass, hcnd⟩ := scanFwd_eq_some p rest r hs
              have hx0 : before p.seq (f1.getLastD hd).seq = false
                  ∧ withinRange p.seq (f1.getLastD hd).seq = true := by
                cases hf1 : f1 with
                | nil =>
                  refine ⟨?_, hc4⟩
                  cases hb2 : before p.seq hd.seq
                  · exact hb2
                  · exact absurd (by rw [hb2, hc4]; rfl) hc1
                | cons z zs =>
                  refine hpass _ ?_
                  rw [← hf1]
                  exact getLastD_mem hd f1 (by rw [hf1]; exact List.cons_ne_nil z zs)
              have horig : hd :: rest = (hd :: f1) ++ (c :: f2) := by
                rw [hsl, List.cons_append]
              have hnew : hd :: r = (hd :: f1) ++ (p :: c :: f2) := by
                rw [hr, List.cons_append]
              rw [hnew]
              rw [horig, List.chain'_append] at hch
              obtain ⟨ch1, ch2, chlink⟩ := hch
              have hRx0c : pairOrdered (f1.getLastD hd) c := by
                refine chlink _ ?_ _ ?_
                · rw [getLast?_eq_getLastD]
                  exact Option.mem_def.mpr rfl
                · exact Option.mem_def.mpr rfl
              rw [List.chain'_append]
              refine ⟨ch1, ?_, ?_⟩
              · rw [List.chain'_cons]
                refine ⟨?_, ch2⟩
                by_cases hbp : before p.seq c.seq = true
                · exact Or.inl hbp
                · have hbpf : before p.seq c.seq = false := by
                    cases hb2 : before p.seq c.seq
                    · rfl
                    · exact absurd hb2 hbp
                  have hwf : withinRange p.seq c.seq = false := by
                    rcases hcnd with h | h
                    · exact absurd h hbp
                    · exact h
                  rcases hRx0c with h | h | h
                  · exact absurd (scan_pass_within p.seq (f1.getLastD hd).seq c.seq
                      hx0.1 hx0.2 h hbpf) (by rw [hwf]; simp)
                  · exact Or.inr (Or.inl h)
                  · exact Or.inr (Or.inr h)
              · intro x hx y hy
                rw [getLast?_eq_getLastD, Option.mem_some_iff] at hx
                rw [List.head?_cons, Option.mem_some_iff] at hy
                subst hx
                subst hy
                exact Or.inl (before_flip p.seq (f1.getLastD hd).seq hx0.1 hx0.2).1
          case isFalse hc4 =>
            rw [List.chain'_append]
            refine ⟨hch, List.chain'_singleton _, ?_⟩
            intro x hx y hy
            rw [List.head?_cons, Option.mem_some_iff] at hy
            subst hy
            cases hst : p.start
            · exact Or.inr (Or.inr (by simp [hst]))
            · exact Or.inr (Or.inl (by simp [hst]))

/-- `push` preserves the amended adjacency invariant. -/
theorem push_chain (b : Buffer) (pkt : InPacket) (now : Int)
    (hch : List.Chain' pairOrdered b.packets) :
    List.Chain' pairOrdered (push b pkt now).packets := by
  unfold push
  dsimp only
  repeat' split
  all_goals first
    | exact hch
    | exact insertPacket_chain _ _ _ hch

/-- `popReady` preserves the amended adjacency invariant: it only removes a
prefix of the list. -/
theorem popReady_chain (b : Buffer) (now : Int)
    (hch : List.Chain' pairOrdered b.packets) :
    List.Chain' pairOrdered (popReady b now).packets := by
  obtain ⟨k, hk, _⟩ := popReady_removes b now
  rw [hk]
  exact chain'_drop _ _ _ hch

/-- Claim C5 as stated is false: from a fresh buffer, push a non-start
packet 100 and then a non-start packet 40000.  The far-append branch of
`push` leaves the 40000 node with `discont = false` (because its `start`
flag is false), yet `before(100, 40000)` is false, so the adjacent pair
violates the claimed invariant. -/
theorem C5_counterexample :
    ¬ List.Chain' pairOrderedClaim C5_run.packets := by
  intro h
  have h2 : C5_run.packets = [⟨100, false, false, false, 0, false⟩,
      ⟨40000, false, false, false, 0, false⟩] := by decide
  rw [h2] at h
  obtain ⟨hR, _⟩ := List.chain'_cons.mp h
  rcases hR with h3 | h3
  · exact absurd h3 (by decide)
  · exact absurd h3 (by decide)

/-- Claim C5, amended: in every reachable buffer state (in particular after
every push), every adjacent pair `(a, b)` of the list satisfies
`before(a.seq, b.seq)` unless `b.discont` is true or `b.start` is false —
nodes that are not sample starts are never marked `discont`, so a far
insertion behind such a node is ordered only up to that extra exception. -/
theorem C5_amended (b : Buffer) (hr : Reachable b) :
    List.Chain' pairOrdered b.packets := by
  induction hr with
  | init latency hasLossHandler => exact List.chain'_nil
  | push b pkt now hb ih =>
    unfold Push
    dsimp only
    split
    · exact push_chain b pkt now ih
    · exact popReady_chain _ _ (push_chain b pkt now ih)
  | timer b now hb ih => exact popReady_chain b now ih
  | updateLatency b d hb ih => exact ih

/-- Witness for C5: the amended invariant at the concrete reachable state
`C5_run` (reached by two pushes from a fresh buffer). -/
theorem C5_witness : List.Chain' pairOrdered C5_run.packets :=
  C5_amended C5_run
    (Reachable.push _ ⟨40000, false, false, false⟩ 0
      (Reachable.push _ ⟨100, false, false, false⟩ 0
        (Reachable.init 100 true)))

/-! ### Claim C4: delivery order -/

theorem popSampleList_popped_pos (prev : Nat) (c : Packet) (cs : List Packet) :
    0 < (popSampleList prev (c :: cs)).2.2.1 := by
  unfold popSampleList
  dsimp only
  split
  · simp
  · dsimp only
    omega

theorem popSampleList_sample_filter : ∀ (l : List Packet) (prev : Nat),
    (popSampleList prev l).1
      = (l.take (popSampleList prev l).2.2.1).filter (fun p => !p.padding)
  | [], _ => rfl
  | c :: cs, prev => by
    have ih := popSampleList_sample_filter cs c.seq
    unfold popSampleList
    dsimp only
    split
    · by_cases hp : c.padding
      · simp [hp]
      · simp [hp]
    · by_cases hp : c.padding
      · simp [hp, List.take_succ_cons, List.filter_cons, ih]
      · simp [hp, List.take_succ_cons, List.filter_cons, ih]

theorem popSampleList_take_chain : ∀ (l : List Packet) (prev : Nat),
    sampleEnds l = true →
    List.Chain' nextSeq (l.take (popSampleList prev l).2.2.1)
  | [], _, hse => by cases hse
  | c :: cs, prev, hse => by
    unfold popSampleList
    dsimp only
    by_cases he : c.end_
    · simp [he]
    · rw [if_neg he]
      dsimp only
      cases cs with
      | nil =>
        unfold sampleEnds at hse
        rw [if_neg he] at hse
        cases hse
      | cons nxt cs2 =>
        unfold sampleEnds at hse
        rw [if_neg he] at hse
        have h1 : nxt.seq = (c.seq + 1) % 65536 := by
          have h := ((Bool.and_eq_true _ _).mp ((Bool.and_eq_true _ _).mp hse).1).1
          simpa using h
        have h3 : sampleEnds (nxt :: cs2) = true :=
          ((Bool.and_eq_true _ _).mp hse).2
        have ih := popSampleList_take_chain (nxt :: cs2) c.seq h3
        have hpos := popSampleList_popped_pos c.seq nxt cs2
        rw [List.take_succ_cons]
        rw [List.chain'_cons']
        refine ⟨?_, ih⟩
        intro y hy
        obtain ⟨m, hm⟩ := Nat.exists_eq_add_of_lt hpos
        rw [hm, Nat.zero_add, List.take_succ_cons, List.head?_cons] at hy
        cases hy
        exact h1

theorem chain_nextSeq_mem : ∀ (l : List Packet) (c : Packet),
    List.Chain' nextSeq (c :: l) → ∀ b ∈ l,
      ∃ k, 1 ≤ k ∧ k ≤ l.length ∧ b.seq = (c.seq + k) % 65536
  | [], _, _, b, hb => by cases hb
  | d :: l2, c, hch, b, hb => by
    have hcd : nextSeq c d := (List.chain'_cons.mp hch).1
    have hch2 : List.Chain' nextSeq (d :: l2) := (List.chain'_cons.mp hch).2
    rcases List.mem_cons.mp hb with rfl | hb2
    · exact ⟨1, le_refl 1, by simp, hcd⟩
    · obtain ⟨k, hk1, hk2, hbs⟩ := chain_nextSeq_mem l2 d hch2 b hb2
      refine ⟨k + 1, by omega, by simp; omega, ?_⟩
      calc b.seq = (d.seq + k) % 65536 := hbs
        _ = ((c.seq + 1) % 65536 + k) % 65536 := by rw [hcd]
        _ = (c.seq + 1 + k) % 65536 := by rw [Nat.mod_add_mod]
        _ = (c.seq + (k + 1)) % 65536 := by congr 1; omega

theorem seqLt_add (a k : Nat) (ha : a < 65536) (hk1 : 1 ≤ k) (hk2 : k < 32768) :
    seqLt a ((a + k) % 65536) := by
  unfold seqLt
  rw [before_eq_true_iff]
  unfold sub16
  constructor
  · omega
  · omega

theorem chain_nextSeq_pairwise : ∀ (l : List Packet),
    List.Chain' nextSeq l → l.length ≤ 32768 → (∀ p ∈ l, p.seq < 65536) →
    List.Pairwise (fun a b => seqLt a.seq b.seq) l
  | [], _, _, _ => List.Pairwise.nil
  | c :: l2, hch, hlen, hseq => by
    refine List.Pairwise.cons ?_ ?_
    · intro b hb
      obtain ⟨k, hk1, hk2, hbs⟩ := chain_nextSeq_mem l2 c hch b hb
      rw [hbs]
      refine seqLt_add c.seq k (hseq c (List.mem_cons_self c l2)) hk1 ?_
      have : l2.length + 1 ≤ 32768 := by simpa using hlen
      omega
    · refine chain_nextSeq_pairwise l2 (List.chain'_cons'.mp hch).2 ?_ ?_
      · have : l2.length + 1 ≤ 32768 := by simpa using hlen
        omega
      · exact fun p hp => hseq p (List.mem_cons_of_mem c hp)

/-- Claim C4, amended: the ordering guarantee that does hold is local to a
single delivered sample: whenever the head of the list is a complete sample
(so `popReady` would emit it), the slice handed to the consumer is strictly
increasing in wrap-aware sequence order — the popped prefix is contiguous
(`+1` mod 2^16 along the `next` links), the sample is its non-padding
subsequence, and any contiguous run of at most 2^15 packets is strictly
wrap-increasing.  Across samples the guarantee fails once a drop has
advanced `prev_sn` (see the counterexample). -/
theorem C4_amended (b : Buffer)
    (hcomp : isComplete b.packets = true)
    (hlen : (popSampleList b.prevSN b.packets).2.2.1 ≤ 32768)
    (hseq : ∀ p ∈ b.packets, p.seq < 65536) :
    List.Pairwise (fun p q => seqLt p.seq q.seq) (popSample b).1 := by
  have hse : sampleEnds b.packets = true := by
    unfold isComplete at hcomp
    cases hb : b.packets with
    | nil => rw [hb] at hcomp; cases hcomp
    | cons c cs =>
      rw [hb] at hcomp
      exact ((Bool.and_eq_true _ _).mp hcomp).2
  have hchain := popSampleList_take_chain b.packets b.prevSN hse
  have hlen2 : (b.packets.take (popSampleList b.prevSN b.packets).2.2.1).length ≤ 32768 := by
    rw [List.length_take]
    omega
  have hseq2 : ∀ p ∈ b.packets.take (popSampleList b.prevSN b.packets).2.2.1, p.seq < 65536 :=
    fun p hp => hseq p (List.mem_of_mem_take hp)
  have hpw := chain_nextSeq_pairwise _ hchain hlen2 hseq2
  unfold popSample
  dsimp only
  rw [popSampleList_sample_filter]
  exact List.Pairwise.sublist (List.filter_sublist _) hpw

theorem C4_witness :
    isComplete (Buffer.packets
        { latency := 100, hasLossHandler := true, initialized := true, prevSN := 99,
          packets := [⟨100, false, true, false, 0, false⟩, ⟨101, false, false, true, 0, false⟩],
          stats := ⟨2, 0, 0, 0, 0, 0⟩, size := 2, emitted := [], lossCalls := 0 }) = true ∧
    List.Pairwise (fun p q => seqLt p.seq q.seq) (popSample
        { latency := 100, hasLossHandler := true, initialized := true, prevSN := 99,
          packets := [⟨100, false, true, false, 0, false⟩, ⟨101, false, false, true, 0, false⟩],
          stats := ⟨2, 0, 0, 0, 0, 0⟩, size := 2, emitted := [], lossCalls := 0 }).1 :=
  ⟨by decide, C4_amended _ (by decide) (by decide) (by decide)⟩

theorem exec_append (b : Buffer) (l1 l2 : List Op) :
    exec b (l1 ++ l2) = exec (exec b l1) l2 := by
  induction l1 generalizing b with
  | nil => rfl
  | cons op t ih =>
    show exec (stepOp b op) (t ++ l2) = exec (exec b (op :: t)) l2
    rw [show exec b (op :: t) = exec (stepOp b op) t from rfl]
    exact ih (stepOp b op)

theorem C4_stale_step (i s : Nat) (h1 : 102 ≤ s) (h2 : s ≤ 32867) :
    stepOp (C4_F i) (.push ⟨s, false, false, false⟩ 200) = C4_F (i + 1) := by
  have hb : before s 32869 = true := by
    rw [before_eq_true_iff]
    unfold sub16
    omega
  show Push (C4_F i) ⟨s, false, false, false⟩ 200 = C4_F (i + 1)
  unfold Push push C4_F
  dsimp only
  simp only [Bool.false_eq_true, if_false]
  rw [hb]
  rfl

theorem C4_fold : ∀ (l : List Nat) (i : Nat), (∀ s ∈ l, 102 ≤ s ∧ s ≤ 32867) →
    exec (C4_F i) (l.map fun s => Op.push ⟨s, false, false, false⟩ 200)
      = C4_F (i + l.length)
  | [], i, _ => by simp [exec]
  | s :: t, i, h => by
    rw [List.map_cons]
    show exec (stepOp (C4_F i) (Op.push ⟨s, false, false, false⟩ 200))
        (t.map fun s => Op.push ⟨s, false, false, false⟩ 200) = C4_F (i + (s :: t).length)
    rw [C4_stale_step i s (h s (List.mem_cons_self s t)).1 (h s (List.mem_cons_self s t)).2]
    rw [C4_fold t (i + 1) (fun x hx => h x (List.mem_cons_of_mem s hx))]
    congr 1
    simp
    omega

theorem C4_prefix : exec (NewBuffer 100 true) C4_ops0 = C4_F 0 := by decide

theorem C4_final : exec (NewBuffer 100 true) C4_ops = C4_F 32766 := by
  rw [show C4_ops = C4_ops0
      ++ (List.range' 102 32766).map (fun s => Op.push ⟨s, false, false, false⟩ 200) from rfl]
  rw [exec_append, C4_prefix]
  rw [C4_fold (List.range' 102 32766) 0 ?_]
  · simp
  · intro s hs
    rw [List.mem_range'_1] at hs
    omega

theorem pushedSeqs_fillers : ∀ (l : List Nat),
    pushedSeqs (l.map fun s => Op.push ⟨s, false, false, false⟩ 200) = l
  | [] => rfl
  | a :: t => by
    rw [List.map_cons]
    show a :: pushedSeqs (t.map fun s => Op.push ⟨s, false, false, false⟩ 200) = a :: t
    rw [pushedSeqs_fillers t]

theorem pushedSeqs_append (ops1 ops2 : List Op) :
    pushedSeqs (ops1 ++ ops2) = pushedSeqs ops1 ++ pushedSeqs ops2 := by
  unfold pushedSeqs
  exact List.filterMap_append _ _ _

theorem C4_pushed :
    pushedSeqs C4_ops = [100, 32868, 32869, 101] ++ List.range' 102 32766 := by
  rw [show C4_ops = C4_ops0
      ++ (List.range' 102 32766).map (fun s => Op.push ⟨s, false, false, false⟩ 200) from rfl]
  rw [pushedSeqs_append, pushedSeqs_fillers]
  rfl

theorem C4_contig (s : Nat) :
    s ∈ pushedSeqs C4_ops ↔ ∃ i, i < 32770 ∧ s = (100 + i) % 65536 := by
  rw [C4_pushed, List.mem_append, List.mem_range'_1]
  constructor
  · intro h
    rcases h with h | h
    · simp at h
      rcases h with rfl | rfl | rfl | rfl
      · exact ⟨0, by omega, by norm_num⟩
      · exact ⟨32768, by omega, by norm_num⟩
      · exact ⟨32769, by omega, by norm_num⟩
      · exact ⟨1, by omega, by norm_num⟩
    · exact ⟨s - 100, by omega, by rw [Nat.mod_eq_of_lt (by omega)]; omega⟩
  · rintro ⟨i, hi, rfl⟩
    rw [Nat.mod_eq_of_lt (by omega)]
    by_cases h0 : i = 0
    · left; rw [h0]; decide
    by_cases h1 : i = 1
    · left; rw [h1]; decide
    by_cases h2 : i = 32768
    · left; rw [h2]; decide
    by_cases h3 : i = 32769
    · left; rw [h3]; decide
    right
    omega

set_option linter.constructorNameAsVariable false in
/-- Claim C4 as stated is false: in the run `C4_ops` the pushed sequence
numbers form the contiguous range 100..32869 (mod 2^16) — pushes of
100, 32868, 32869, 101, 102, ..., 32867 interleaved with one deadline-timer
fire — yet the consumer receives sequence 100 and then sequence 32869,
which does not wrap-precede 100 is false... precisely: `before 100 32869`
is false, so delivery is not strictly increasing in wrap-aware order (and
the head of the second delivered sample has `discont = false`, so the
violation is within a single continuity segment as flagged by the buffer).
The cause: packet 32868 expires incomplete, the drop advances `prev_sn`
to 32868, which lets 32869 jump the queue past the parked packet 101. -/
theorem C4_counterexample :
    ¬ (∀ (latency : Int) (hasLH : Bool) (ops : List Op) (lo n : Nat),
        (∀ s, s ∈ pushedSeqs ops ↔ ∃ i, i < n ∧ s = (lo + i) % 65536) →
        List.Chain' (fun a b => seqLt a b)
            (deliveredSeqs (exec (NewBuffer latency hasLH) ops))
          ∧ List.Chain' sameSegStep (exec (NewBuffer latency hasLH) ops).emitted) := by
  intro h
  obtain ⟨h1, _⟩ := h 100 true C4_ops 100 32770 C4_contig
  rw [C4_final] at h1
  have hd : deliveredSeqs (C4_F 32766) = [100, 32869] := rfl
  rw [hd] at h1
  have hlt : seqLt 100 32869 := (List.chain'_cons.mp h1).1
  exact absurd hlt.1 (by decide)

end Jitter
